import Mathlib

/-!
Verification development for the UpstoxAlgo market-data backend.

Shallow embedding of the tick-aggregation, backfill-merge, gap-recovery,
rate-limiting and data-integrity-validation code in
`backend/services/aggregator_service.py`, `backend/services/backfill_client.py`,
`backend/services/historical_data_manager.py`,
`backend/services/trading_data_manager.py`, `backend/utils/time_service.py`
and `backend/models/market.py`.

Modelling conventions:
* Timezone-aware IST timestamps are embedded as `Int` microseconds measured
  from an IST midnight.  With that choice, `datetime.replace(second=0,
  microsecond=0)` is flooring to a multiple of 60·10⁶, the 5m/15m
  minute-of-hour truncation is flooring to 300·10⁶ / 900·10⁶ (hour starts are
  multiples of both), hour truncation is flooring to 3600·10⁶ and IST
  calendar-day truncation is flooring to 86400·10⁶.  The timezone-naive error
  branch of `floor_to_bucket` is unrepresentable: the embedded type only
  contains aware timestamps.
* Python floats used for prices are embedded as `ℚ`; the operations the code
  performs on them (`max`, `min`, comparison, assignment) agree with the
  rational operations on the decimal literals involved.
* `collections.OrderedDict` keyed by candle start is embedded as an
  association list in insertion order (oldest first); assigning to an
  existing key overwrites in place, assigning a fresh key appends, and
  `popitem(last=False)` pops the head.
* `await`/`asyncio.gather` over independent per-timeframe updates is embedded
  as sequential application; each `_SeriesState` is touched by exactly one of
  the gathered tasks.
-/

/-! ### Bucket clock (`backend/utils/time_service.py`) -/

/-- The five timeframes of `aggregator_service.TIMEFRAMES`. -/
inductive Timeframe where
  | m1 | m5 | m15 | h1 | d1
deriving DecidableEq, Repr

/-- Bucket width in microseconds (`bucket_end`'s timedelta per timeframe). -/
def tfWidth : Timeframe → Int
  | .m1 => 60000000
  | .m5 => 300000000
  | .m15 => 900000000
  | .h1 => 3600000000
  | .d1 => 86400000000

/-- Embeds `floor_to_bucket`: floor an IST timestamp (µs from IST midnight) to the
start of its candle bucket.  The calendar-field truncations performed by the
Python code coincide with flooring to the bucket width because the time
origin is an IST midnight (see module docstring). -/
def floorToBucket (tf : Timeframe) (ts : Int) : Int :=
  ts - ts % tfWidth tf

/-- Embeds `bucket_end`: exclusive end of the bucket that starts at `start`. -/
def bucketEnd (tf : Timeframe) (start : Int) : Int :=
  start + tfWidth tf

/-! ### Market models (`backend/models/market.py`) -/

/-- Embeds `market.Candle`.  Exactly the fields of the dataclass: `start`, `end`
(reserved word in Lean, rendered `end_`), `o`, `h`, `l`, `c`, `v`, `symbol`,
`timeframe`.  Prices are `ℚ`, volume is `Int`. -/
structure Candle where
  start : Int
  end_ : Int
  o : ℚ
  h : ℚ
  l : ℚ
  c : ℚ
  v : Int
  symbol : String
  timeframe : Timeframe
deriving DecidableEq, Repr

/-- Embeds `market.Tick`. -/
structure Tick where
  ts : Int
  ltp : ℚ
  volCum : Option Int
  qty : Option Int
  symbol : String
  exch : String
  seq : Option Int
deriving DecidableEq, Repr

/-! ### The closed-candle ordered map

`_SeriesState.closed` is an `OrderedDict[datetime, Candle]`, embedded as an
association list in insertion order, oldest entry first. -/

/-- Association list from candle-start timestamps to candles, insertion
order, oldest first. -/
abbrev OMap := List (Int × Candle)

/-- Membership test for a key (`k in ordered_dict`). -/
def omapMember (k : Int) (m : OMap) : Bool :=
  m.any (fun p => p.1 == k)

/-- Lookup, as in `ordered_dict[k]`. -/
def omapLookup (k : Int) (m : OMap) : Option Candle :=
  (m.find? (fun p => p.1 == k)).map Prod.snd

/-- The stored candles, in insertion order (`ordered_dict.values()`). -/
def omapValues (m : OMap) : List Candle :=
  m.map Prod.snd

/-- The stored keys, in insertion order. -/
def omapKeys (m : OMap) : List Int :=
  m.map Prod.fst

/-- Assignment `ordered_dict[k] = v` without the cap: overwrite in place if the key is
present (preserving its position), otherwise append at the end. -/
def omapAssign (k : Int) (v : Candle) (m : OMap) : OMap :=
  if omapMember k m then m.map (fun p => if p.1 == k then (k, v) else p)
  else m ++ [(k, v)]

/-- Eviction loop `while len(closed) > cap: closed.popitem(last=False)` — drop oldest
entries until the size bound holds. -/
def popToCap (cap : Nat) : OMap → OMap
  | [] => []
  | p :: rest => if rest.length + 1 > cap then popToCap cap rest else p :: rest

/-- The memory bound used for every closed-candle map in
`aggregator_service.py` (`while len(series.closed) > 2000`). -/
def CLOSED_CAP : Nat := 2000

/-- Assignment followed by the eviction loop — the exact store step the
aggregator performs on `series.closed`. -/
def omapInsert (cap : Nat) (k : Int) (v : Candle) (m : OMap) : OMap :=
  popToCap cap (omapAssign k v m)

/-! ### Series state and tick application (`aggregator_service.py`) -/

/-- Embeds `_SeriesState`. -/
structure SeriesState where
  working : Option Candle := none
  closed : OMap := []
  lastProcessedTs : Option Int := none
  lastSeenCumVol : Option Int := none
deriving DecidableEq, Repr

/-- The fresh `_SeriesState()` produced by the defaultdict. -/
def freshSeries : SeriesState := {}

/-- Volume delta of one tick: an explicit trade quantity wins; otherwise the
cumulative-volume difference against the last seen value
(`last = series.last_seen_cum_vol or 0`), clamped at 0. -/
def tickDeltaV (tick : Tick) (lastSeenCumVol : Option Int) : Int :=
  match tick.qty with
  | some q => max q 0
  | none =>
    match tick.volCum with
    | some vc => max (vc - lastSeenCumVol.getD 0) 0
    | none => 0

/-- New `last_seen_cum_vol`: updated only on the cumulative-volume path. -/
def tickLastSeen (tick : Tick) (lastSeenCumVol : Option Int) : Option Int :=
  match tick.qty with
  | some _ => lastSeenCumVol
  | none =>
    match tick.volCum with
    | some vc => some vc
    | none => lastSeenCumVol

/-- Embeds `AggregatorService._apply_tick_tf`, for one timeframe and one series. -/
def applyTickTf (tf : Timeframe) (tick : Tick) (s : SeriesState) : SeriesState :=
  let bucketStart := floorToBucket tf tick.ts
  let endT := bucketEnd tf bucketStart
  let deltaV : Int := tickDeltaV tick s.lastSeenCumVol
  let lastSeen' : Option Int := tickLastSeen tick s.lastSeenCumVol
  match s.working with
  | none =>
    { s with
      working := some ⟨bucketStart, endT, tick.ltp, tick.ltp, tick.ltp, tick.ltp,
        deltaV, tick.symbol, tf⟩
      lastProcessedTs := some tick.ts
      lastSeenCumVol := lastSeen' }
  | some w =>
    if bucketStart > w.start then
      -- rollover: move the working candle into the closed map, open a new one
      { s with
        working := some ⟨bucketStart, endT, tick.ltp, tick.ltp, tick.ltp, tick.ltp,
          deltaV, tick.symbol, tf⟩
        closed := omapInsert CLOSED_CAP w.start w s.closed
        lastProcessedTs := some tick.ts
        lastSeenCumVol := lastSeen' }
    else
      -- same bucket: fold the tick into the working candle
      { s with
        working := some { w with
          h := max w.h tick.ltp
          l := min w.l tick.ltp
          c := tick.ltp
          v := w.v + deltaV }
        lastProcessedTs := some tick.ts
        lastSeenCumVol := lastSeen' }

/-- Timestamp 09:30:05 IST in microseconds from IST midnight. -/
def ts093005 : Int := (9 * 3600 + 30 * 60 + 5) * 1000000

def ts093040 : Int := (9 * 3600 + 30 * 60 + 40) * 1000000

def ts093101 : Int := (9 * 3600 + 31 * 60 + 1) * 1000000

def ts093000 : Int := (9 * 3600 + 30 * 60) * 1000000

def ts093100 : Int := (9 * 3600 + 31 * 60) * 1000000

def ts093200 : Int := (9 * 3600 + 32 * 60) * 1000000

/-- The three ticks of the spec's concrete scenario. -/
def tickA : Tick := ⟨ts093005, 100, none, some 10, "X", "NSE", none⟩

def tickB : Tick := ⟨ts093040, 101, none, some 5, "X", "NSE", none⟩

def tickC : Tick := ⟨ts093101, 99, none, some 3, "X", "NSE", none⟩

/-- Scenario state: the three ticks applied to a fresh 1-minute series. -/
def scenarioSeries : SeriesState :=
  applyTickTf .m1 tickC (applyTickTf .m1 tickB (applyTickTf .m1 tickA freshSeries))

/-! ### Backfill merge and the aggregator service (`aggregator_service.py`) -/

/-- The merge loop of `AggregatorService._backfill_and_merge`: store every
fetched candle whose (exclusive) end is at or before `now`, keyed by its
start, into the closed map, evicting the oldest entries beyond the cap.
(`now_ist()` is re-read per iteration in Python; a later read can only be
later, which only admits more candles — we pass one `now`.) -/
def mergeBackfill (now : Int) (candles : List Candle) (closed : OMap) : OMap :=
  candles.foldl
    (fun m c => if c.end_ ≤ now then omapInsert CLOSED_CAP c.start c m else m)
    closed

/-- Embeds `aggregator_service.TIMEFRAMES`. -/
def TIMEFRAMES : List Timeframe := [.m1, .m5, .m15, .h1, .d1]

/-- Observable side effects of the service: feed-connection calls and
upstream fetches (intraday when the requested range is at most one day). -/
inductive FeedAction where
  | disconnect
  | fetchCall (intraday : Bool) (symbol : String) (tf : Timeframe) (from_ to_ : Int)
deriving DecidableEq, Repr

/-- Result of one upstream fetch, supplied as an oracle: the transport either
fails (any exception) or returns a list of normalized candles. -/
def FetchOracle : Type :=
  Bool → String → Timeframe → Int → Int → Except Unit (List Candle)

/-- Mutable fields of `AggregatorService`: the per-stream access token, the
subscribed symbols and the `state[symbol][timeframe]` map (a defaultdict, so
every series exists, lazily fresh). -/
structure AggService where
  token : Option String
  symbols : List String
  stmap : String → Timeframe → SeriesState

/-- Embeds `AggregatorService._backfill_and_merge`: pick the intraday endpoint for
ranges of at most one day, fetch, and on success merge into the series'
closed map; any fetch error leaves the state untouched.  Returns the updated
state map together with the fetch performed. -/
def backfillAndMerge (fetch : FetchOracle) (now : Int) (symbol : String)
    (tf : Timeframe) (from_ to_ : Int) (stmap : String → Timeframe → SeriesState) :
    (String → Timeframe → SeriesState) × List FeedAction :=
  let intraday := to_ - from_ ≤ 86400000000
  match fetch intraday symbol tf from_ to_ with
  | .error _ => (stmap, [.fetchCall intraday symbol tf from_ to_])
  | .ok candles =>
    (fun s' tf' =>
      if s' = symbol ∧ tf' = tf then
        { stmap s' tf' with closed := mergeBackfill now candles (stmap s' tf').closed }
      else stmap s' tf',
     [.fetchCall intraday symbol tf from_ to_])

/-- Embeds `AggregatorService.recover_gaps`: a silent no-op without an access token;
otherwise one backfill-and-merge per timeframe over `[since, now)`. -/
def recoverGaps (fetch : FetchOracle) (now : Int) (st : AggService)
    (symbol : String) (since : Int) : AggService × List FeedAction :=
  match st.token with
  | none => (st, [])
  | some _ =>
    let step := fun (acc : (String → Timeframe → SeriesState) × List FeedAction) tf =>
      let (m, acts) := backfillAndMerge fetch now symbol tf since now acc.1
      (m, acc.2 ++ acts)
    let (m, acts) := TIMEFRAMES.foldl step (st.stmap, [])
    ({ st with stmap := m }, acts)

/-- Embeds `AggregatorService.stop_stream`: disconnect the feed and clear the
session token and symbol list. -/
def stopStream (st : AggService) : AggService × List FeedAction :=
  ({ st with token := none, symbols := [] }, [.disconnect])

/-- Embeds `AggregatorService.on_tick`: apply the tick to every timeframe's series
of the tick's symbol. -/
def onTick (tick : Tick) (st : AggService) : AggService :=
  { st with
    stmap := fun sym tf =>
      if sym = tick.symbol then applyTickTf tf tick (st.stmap sym tf)
      else st.stmap sym tf }

/-- Python's `xs[-limit:]` slice for a non-negative `limit`: the whole list
when `limit = 0`, otherwise the last `limit` elements. -/
def lastSlice (limit : Nat) (xs : List Candle) : List Candle :=
  if limit = 0 then xs else xs.drop (xs.length - limit)

/-- Stable insertion of a candle into a list sorted ascending by `start`:
the new element lands after existing elements with equal start. -/
def insByStart (c : Candle) : List Candle → List Candle
  | [] => [c]
  | x :: xs => if x.start ≤ c.start then x :: insByStart c xs else c :: x :: xs

/-- Embeds `sorted(items, key=lambda c: c.start)` — a stable sort by start. -/
def sortByStart (items : List Candle) : List Candle :=
  items.foldl (fun acc c => insByStart c acc) []

/-- Embeds `AggregatorService.get_candles`: the last `limit` closed values in
insertion order, the working candle appended if present, sorted ascending by
start.  (An absent series behaves like a fresh one: both return `[]`.) -/
def getCandles (st : AggService) (symbol : String) (tf : Timeframe)
    (limit : Nat) : List Candle :=
  let s := st.stmap symbol tf
  sortByStart (lastSlice limit (omapValues s.closed) ++ s.working.toList)

/-! ### Data integrity validator (`trading_data_manager.py`) -/

/-- Embeds `TradingDataManager.trading_intervals` (daily excluded). -/
inductive TradingInterval where
  | oneMinute | fiveMinute | fifteenMinute
deriving DecidableEq, Repr

def tradingIntervals : List TradingInterval :=
  [.oneMinute, .fiveMinute, .fifteenMinute]

/-- A missing session `(session_start, session_end)`. -/
abbrev Gap := Int × Int

/-- Embeds `TradingInstrument` (the fields the validator reads and writes). -/
structure TradingInstrument where
  instrumentKey : String
  symbol : String
  name : String
  isSelected : Bool := false
  historicalComplete : Bool := false
  websocketActive : Bool := false
  dataGaps : List Gap := []
deriving DecidableEq, Repr

/-- Embeds `DataIntegrityStatus`. -/
structure DataIntegrityStatus where
  totalInstruments : Nat
  historicalComplete : Nat
  websocketActive : Nat
  dataGapsDetected : Nat
  recoveryInProgress : Bool
  readyForTrading : Bool
  completionPercentage : ℚ
deriving DecidableEq, Repr

/-- What `_check_interval_completeness` reports for one instrument/interval:
the list of missing expected sessions, read from the candle database.  The
database contents are an oracle input; the checker's `complete` flag is
`len(gaps) == 0`. -/
def GapOracle : Type := String → TradingInterval → List Gap

/-- Per-instrument body of the validation loop: the gaps the loop
accumulates for one selected instrument (one entry per incomplete
interval, in interval order). -/
def instrumentGaps (check : GapOracle) (key : String) : List Gap :=
  tradingIntervals.foldl (fun acc iv => acc ++ check key iv) []

/-- Flag `instrument_complete`: every trading interval reports zero gaps. -/
def instrumentComplete (check : GapOracle) (key : String) : Bool :=
  tradingIntervals.all (fun iv => check key iv == [])

/-- Embeds `TradingDataManager.validate_historical_data_completeness`, as a pure
function of the instrument table, the per-interval gap reports and the
`gap_recovery_active` flag.  Returns the status together with the mutated
instrument list (gap lists extended, per-instrument complete flags set). -/
def validateCompleteness (check : GapOracle) (instruments : List TradingInstrument)
    (recoveryActive : Bool) : DataIntegrityStatus × List TradingInstrument :=
  let selected := instruments.filter (fun i => i.isSelected)
  let total := selected.length
  let completeCount :=
    (selected.filter (fun i => instrumentComplete check i.instrumentKey)).length
  let gapsDetected :=
    (selected.map (fun i => (instrumentGaps check i.instrumentKey).length)).sum
  let instruments' := instruments.map (fun i =>
    if i.isSelected then
      { i with
        dataGaps := i.dataGaps ++ instrumentGaps check i.instrumentKey
        historicalComplete :=
          i.historicalComplete || instrumentComplete check i.instrumentKey }
    else i)
  let pct : ℚ := if total > 0 then (completeCount : ℚ) / (total : ℚ) * 100 else 0
  ({ totalInstruments := total
     historicalComplete := completeCount
     websocketActive := (instruments.filter (fun i => i.websocketActive)).length
     dataGapsDetected := gapsDetected
     recoveryInProgress := recoveryActive
     readyForTrading := pct == 100
     completionPercentage := pct }, instruments')

/-- Feed-level effects of `start_websocket_feed`. -/
inductive WsAction where
  | connect
  | subscribe (keys : List String)
deriving DecidableEq, Repr

/-- The `TradingDataManager` fields `start_websocket_feed` consults. -/
structure TDMState where
  instruments : List TradingInstrument
  token : Option String
  historicalComplete : Bool
  websocketActive : Bool
deriving DecidableEq, Repr

/-- Embeds `TradingDataManager.start_websocket_feed`: refuses (returns `False`,
touching nothing) unless historical data is complete and a token is present;
otherwise connects, subscribes the selected instruments and flags the feed
active.  `connectOk` abstracts whether the connection attempt raises. -/
def startWebsocketFeed (st : TDMState) (connectOk : Bool) :
    Bool × List WsAction × TDMState :=
  if !st.historicalComplete then (false, [], st)
  else if st.token = none then (false, [], st)
  else if !connectOk then (false, [WsAction.connect], st)
  else
    let keys := (st.instruments.filter (fun i => i.isSelected)).map
      (fun i => i.instrumentKey)
    (true,
     WsAction.connect :: (if keys.isEmpty then [] else [WsAction.subscribe keys]),
     { st with websocketActive := true })

/-! ### Rate-limited fetcher (`historical_data_manager.RateLimitedFetcher`)

Wall-clock seconds are embedded as `ℚ`.  One scheduler step is one pass of
the `start_processing` loop: check the limiter (pruning the tracked
timestamps and possibly sleeping), process the request, then append the
completion time to `last_request_times`. -/

/-- Default `requests_per_minute`. -/
def REQUESTS_PER_MINUTE : Nat := 25

/-- The pruning in `_wait_for_rate_limit`: drop timestamps at least 60
seconds old (`t > now - 60` is kept). -/
def pruneTimes (now : ℚ) (ts : List ℚ) : List ℚ :=
  ts.filter (fun t => now - 60 < t)

/-- Minimum of a list of times (`min(...)`; only used on nonempty lists). -/
def listMin : List ℚ → ℚ
  | [] => 0
  | t :: ts => ts.foldl min t

/-- Embeds `_wait_for_rate_limit`: the time at which the sleeping task resumes.  If,
after pruning, the window is at capacity, sleep until the oldest tracked
timestamp is more than 60 seconds old plus a 1-second buffer. -/
def waitResume (rpm : Nat) (now : ℚ) (ts : List ℚ) : ℚ :=
  let pruned := pruneTimes now ts
  if rpm ≤ pruned.length then
    let oldest := listMin pruned
    let waitTime := 60 - (now - oldest) + 1
    if 0 < waitTime then now + waitTime else now
  else now

/-- One queue-drain iteration of `start_processing`.  `gap` is the elapsed
time between the previous request's completion and this iteration's
limiter check; `d` is the time the request itself takes.  Returns the new
tracked-timestamp list and the recorded completion time. -/
def schedStep (rpm : Nat) (clock : ℚ) (ts : List ℚ) (gap d : ℚ) :
    List ℚ × ℚ :=
  let now := clock + gap
  let rec_ := waitResume rpm now ts + d
  (pruneTimes now ts ++ [rec_], rec_)

/-- Drain a queue of requests (one `(gap, duration)` pair per request),
returning the recorded completion times, in order. -/
def runSched (rpm : Nat) : List (ℚ × ℚ) → ℚ → List ℚ → List ℚ
  | [], _, _ => []
  | (gap, d) :: rest, clock, ts =>
    let (ts', rec_) := schedStep rpm clock ts gap d
    rec_ :: runSched rpm rest rec_ ts'

/-- Does `t` lie inside the sliding window `(x, x + 60]`? -/
def inWindow (x t : ℚ) : Bool :=
  decide (x < t ∧ t ≤ x + 60)

/-- Number of recorded timestamps inside the sliding window `(x, x + 60]`. -/
def windowCount (x : ℚ) (ts : List ℚ) : Nat :=
  (ts.filter (inWindow x)).length

/-! ### Backfill client retry loop (`backfill_client._fetch_with_client`)

`for attempt in range(4)` — return the response on success; on an
`httpx.HTTPError`, re-raise it if this was attempt 3, else sleep
`0.5 * 2 ** attempt` seconds and try again.  `responses` is the transport
oracle (one outcome per attempt number); the embedding also returns how many
requests were issued and the sleeps performed. -/

/-- One backoff delay, in seconds. -/
def backoffDelay (attempt : Nat) : ℚ := 1 / 2 * 2 ^ attempt

/-- The retry loop, counting down the remaining attempts after the current
one (`left = 3 - attempt` initially). -/
def fetchLoop (E D : Type) (responses : Nat → Except E D) :
    Nat → Nat → Except E D × Nat × List ℚ
  | attempt, 0 =>
    match responses attempt with
    | .ok dta => (.ok dta, attempt + 1, [])
    | .error e => (.error e, attempt + 1, [])
  | attempt, left + 1 =>
    match responses attempt with
    | .ok dta => (.ok dta, attempt + 1, [])
    | .error _ =>
      let (r, n, ds) := fetchLoop E D responses (attempt + 1) left
      (r, n, backoffDelay attempt :: ds)

/-- Embeds `_fetch_with_client`: up to four attempts, numbered 0..3. -/
def fetchWithClient (E D : Type) (responses : Nat → Except E D) :
    Except E D × Nat × List ℚ :=
  fetchLoop E D responses 0 3

/-! ### Proof-support definitions

Auxiliary functions used to state and prove properties of the embedded code;
they perform no eviction and exist only for reasoning. -/

/-- The backfill merge with the eviction loop removed; coincides with
`mergeBackfill` whenever the closed map stays below the cap. -/
def mergePure (now : Int) (candles : List Candle) (closed : OMap) : OMap :=
  candles.foldl
    (fun m c => if c.end_ ≤ now then omapAssign c.start c m else m)
    closed

/-- Last-writer-wins accumulator for the key `k` over a fetched batch:
folding it over the batch yields the final stored value at `k`. -/
def writeStep (now : Int) (k : Int) (acc : Option Candle) (c : Candle) :
    Option Candle :=
  if c.end_ ≤ now ∧ c.start = k then some c else acc

/-- A closed map whose keys are the `n` consecutive starts `a, a+1, ...`,
oldest first — the generic shape of a fully populated closed map. -/
def mkCandle (i : Int) : Candle :=
  ⟨i, i + 1, 1, 1, 1, 1, 0, "X", .m1⟩

def rangeClosed (a : Int) (n : Nat) : OMap :=
  (List.range n).map (fun i : Nat => (a + (i : Int), mkCandle (a + (i : Int))))

/-! ### Concrete instances used by individual claims -/

/-- A fully populated closed map at the eviction cap (keys 0..1999). -/
def bigClosed : OMap := rangeClosed 0 CLOSED_CAP

/-- A fetched batch that overwrites the oldest stored key and adds one new
key — enough to trigger one eviction at the cap. -/
def cexBatch : List Candle := [mkCandle 0, mkCandle 2000]

def cexNow : Int := 10000000

/-- Result of one backfill merge of `cexBatch` at the cap. -/
def cexOnce : OMap := mergeBackfill cexNow cexBatch bigClosed

/-- Result of re-running the same backfill merge. -/
def cexTwice : OMap := mergeBackfill cexNow cexBatch cexOnce

/-- Aggregator-service state holding only fresh series. -/
def freshAgg : AggService :=
  { token := some "token", symbols := ["X"], stmap := fun _ _ => freshSeries }

/-- The service state after the three scenario ticks. -/
def scenarioAgg : AggService :=
  onTick tickC (onTick tickB (onTick tickA freshAgg))

/-- A service state whose X/1m series has an in-progress working candle. -/
def workingAgg : AggService :=
  { token := some "token", symbols := ["X"],
    stmap := fun sym tf =>
      if sym = "X" ∧ tf = Timeframe.m1 then scenarioSeries else freshSeries }

/-- The working candle of `scenarioSeries`. -/
def scenarioWorking : Candle :=
  ⟨ts093100, ts093200, 99, 99, 99, 99, 3, "X", .m1⟩

/-- Two closed 1m candles; merged newest-first, as a provider may return
them. -/
def cOld : Candle := ⟨0, 60000000, 10, 11, 9, 10, 5, "X", .m1⟩

def cNew : Candle := ⟨60000000, 120000000, 12, 13, 11, 12, 6, "X", .m1⟩

/-- A series whose closed map was populated by a backfill merge that
delivered the newer candle first. -/
def outOfOrderSeries : SeriesState :=
  { working := none, closed := mergeBackfill 1000000000 [cNew, cOld] [],
    lastProcessedTs := none, lastSeenCumVol := none }

def outOfOrderAgg : AggService :=
  { token := none, symbols := [],
    stmap := fun sym tf =>
      if sym = "X" ∧ tf = Timeframe.m1 then outOfOrderSeries else freshSeries }

/-- A gap oracle reporting no gaps anywhere. -/
def noGapsOracle : GapOracle := fun _ _ => []

/-- One selected instrument. -/
def exInstrument : TradingInstrument :=
  { instrumentKey := "NSE_EQ|INE009A01021", symbol := "INFY", name := "Infosys",
    isSelected := true }

/-- A transport that fails on every attempt, tagged by attempt number. -/
def alwaysFail : Nat → Except Nat Unit := fun n => .error n

/-- A transport that succeeds immediately. -/
def immediateOk : Nat → Except Nat Unit := fun _ => .ok ()

/-! ## Theorems -/

/-! ### Bucket-clock facts -/

theorem tfWidth_pos (tf : Timeframe) : 0 < tfWidth tf := by
  cases tf <;> decide

theorem floorToBucket_le (tf : Timeframe) (t : Int) : floorToBucket tf t ≤ t := by
  have h := Int.emod_nonneg t (ne_of_gt (tfWidth_pos tf))
  unfold floorToBucket
  omega

theorem lt_floorToBucket_add (tf : Timeframe) (t : Int) :
    t < floorToBucket tf t + tfWidth tf := by
  have h := Int.emod_lt_of_pos t (tfWidth_pos tf)
  unfold floorToBucket
  omega

/-! ### C2, C8: concrete tick application -/

/-- C2: applying the ticks (09:30:05, 100.0, qty 10), (09:30:40, 101.0,
qty 5), (09:31:01, 99.0, qty 3) through `onTick` to a fresh 1-minute series
yields exactly one closed candle `[09:30:00, 09:31:00)` with O=100, H=101,
L=100, C=101, V=15, and a working candle starting 09:31:00 with
O=H=L=C=99, V=3. -/
theorem onTick_concrete_scenario :
    scenarioAgg.stmap "X" Timeframe.m1 =
      { working := some ⟨ts093100, ts093200, 99, 99, 99, 99, 3, "X", Timeframe.m1⟩
        closed := [(ts093000, ⟨ts093000, ts093100, 100, 101, 100, 101, 15, "X", Timeframe.m1⟩)]
        lastProcessedTs := some ts093101
        lastSeenCumVol := none } := by
  decide

/-- C8: evaluating the aggregator at the failing input — the first scenario
tick opening a fresh working candle — shows the candle it maintains carries
exactly the nine fields start, end, open, high, low, close, volume, symbol
and timeframe: no tick count is set to 1 on open (nor incremented later),
because the aggregator's `Candle` model has no tick-count field at all. -/
theorem applyTickTf_new_working_fields :
    applyTickTf Timeframe.m1 tickA freshSeries =
      { working := some ⟨ts093000, ts093100, 100, 100, 100, 100, 10, "X", Timeframe.m1⟩
        closed := []
        lastProcessedTs := some ts093005
        lastSeenCumVol := none } := by
  decide

/-! ### C7: stop_stream and working candles -/

/-- C7 counterexample: a concrete service state whose X/1m series has a
working candle; after `stopStream` returns, that candle is still the working
candle and is absent from the closed map — it was not flushed. -/
theorem stopStream_does_not_flush_working :
    (workingAgg.stmap "X" Timeframe.m1).working = some scenarioWorking ∧
    ((stopStream workingAgg).1.stmap "X" Timeframe.m1).working = some scenarioWorking ∧
    omapLookup scenarioWorking.start
      ((stopStream workingAgg).1.stmap "X" Timeframe.m1).closed = none := by
  decide

/-- C7 amended: `stopStream` disconnects the feed and clears the session
token and symbol list, but leaves every series — working candle, closed map,
timestamps — exactly as it was: working candles are not flushed. -/
theorem stopStream_leaves_series_untouched :
    ∀ (st : AggService) (sym : String) (tf : Timeframe),
      (stopStream st).1.stmap sym tf = st.stmap sym tf ∧
      (stopStream st).1.token = none ∧
      (stopStream st).1.symbols = [] ∧
      (stopStream st).2 = [FeedAction.disconnect] :=
  fun _ _ _ => ⟨rfl, rfl, rfl, rfl⟩

/-! ### C10: recover_gaps without an active stream -/

/-- C10: with no stored access token (none was set, or `stopStream` cleared
it — the second conjunct), `recoverGaps` returns the state unchanged and
performs no fetch at all. -/
theorem recoverGaps_noop_without_token :
    (∀ (fetch : FetchOracle) (now : Int) (st : AggService) (sym : String) (since : Int),
        st.token = none → recoverGaps fetch now st sym since = (st, [])) ∧
    (∀ st : AggService, ((stopStream st).1).token = none) := by
  refine ⟨fun fetch now st sym since h => ?_, fun _ => rfl⟩
  simp [recoverGaps, h]

/-- Witness for C10 at a concrete state with populated series. -/
theorem recoverGaps_noop_without_token_witness :
    recoverGaps (fun _ _ _ _ _ => Except.error ()) 0 outOfOrderAgg "X" 0 =
      (outOfOrderAgg, []) :=
  recoverGaps_noop_without_token.1 _ 0 outOfOrderAgg "X" 0 rfl

/-! ### C6: backfill client retry loop -/

/-- C6 counterexample: with a transport that fails every attempt, the client
issues exactly 4 requests — the first call plus 3 retries, sleeping 0.5s,
1s, 2s — not the 4 retries (5 requests, with a further 4s backoff) the claim
describes, and the terminal failure is the last underlying transport error
itself (the repository defines no FetchError wrapper). -/
theorem fetchWithClient_four_attempts_only :
    fetchWithClient Nat Unit alwaysFail = (Except.error 3, 4, [1/2, 1, 2]) ∧
    (fetchWithClient Nat Unit alwaysFail).2.1 ≠ 5 ∧
    (fetchWithClient Nat Unit alwaysFail).2.2.length = 3 :=
  ⟨by norm_num [fetchWithClient, fetchLoop, alwaysFail, backoffDelay],
   by decide, by decide⟩

/-- C6 amended: each call issues one upstream request when the first attempt
succeeds; on retryable transport errors it makes at most 4 attempts in
total, with exponential backoff delays 0.5s, 1s, 2s between them, and after
the fourth failed attempt it fails with the last underlying error. -/
theorem fetchWithClient_retry_schedule :
    (∀ (E D : Type) (resp : Nat → Except E D), (fetchWithClient E D resp).2.1 ≤ 4) ∧
    (∀ (E D : Type) (resp : Nat → Except E D) (d : D),
        resp 0 = .ok d → fetchWithClient E D resp = (.ok d, 1, [])) ∧
    (∀ (E D : Type) (resp : Nat → Except E D) (e0 e1 e2 e3 : E),
        resp 0 = .error e0 → resp 1 = .error e1 → resp 2 = .error e2 →
        resp 3 = .error e3 →
        fetchWithClient E D resp =
          (.error e3, 4, [backoffDelay 0, backoffDelay 1, backoffDelay 2])) := by
  refine ⟨fun E D resp => ?_, fun E D resp d h0 => ?_, fun E D resp e0 e1 e2 e3 h0 h1 h2 h3 => ?_⟩
  · unfold fetchWithClient fetchLoop
    cases resp 0 with
    | ok d => simp
    | error e0 =>
      unfold fetchLoop
      cases resp 1 with
      | ok d => simp
      | error e1 =>
        unfold fetchLoop
        cases resp 2 with
        | ok d => simp
        | error e2 =>
          unfold fetchLoop
          cases resp 3 with
          | ok d => simp
          | error e3 => simp
  · unfold fetchWithClient fetchLoop
    rw [h0]
  · unfold fetchWithClient fetchLoop
    rw [h0]
    unfold fetchLoop
    rw [h1]
    unfold fetchLoop
    rw [h2]
    unfold fetchLoop
    rw [h3]

/-- Witness for C6 at a transport that succeeds immediately. -/
theorem fetchWithClient_retry_schedule_witness :
    fetchWithClient Nat Unit immediateOk = (.ok (), 1, []) :=
  fetchWithClient_retry_schedule.2.1 Nat Unit immediateOk () rfl

/-! ### C1: completeness validation and the websocket gate -/

theorem ratio_eq_hundred_iff (c t : Nat) (h : 0 < t) :
    ((c : ℚ) / (t : ℚ) * 100 = 100) ↔ c = t := by
  have ht : (t : ℚ) ≠ 0 := Nat.cast_ne_zero.mpr (Nat.pos_iff_ne_zero.mp h)
  constructor
  · intro hEq
    have h1 : (c : ℚ) / t = 1 := by
      have h100 : ((100 : ℚ)) ≠ 0 := by norm_num
      have h2 : (c : ℚ) / t * 100 = 1 * 100 := by rw [hEq, one_mul]
      exact mul_right_cancel₀ h100 h2
    exact Nat.cast_inj.mp ((div_eq_one_iff_eq ht).mp h1)
  · intro hEq
    subst hEq
    rw [div_self ht, one_mul]

/-- C1 counterexample: with no selected instruments, every selected
instrument vacuously has zero gaps, yet `validateCompleteness` reports
`ready_for_trading = false` (completion percentage 0, not 100) — the claimed
equivalence fails on an empty selection. -/
theorem validateCompleteness_empty_selection_breaks_iff :
    ¬ (((validateCompleteness noGapsOracle [] false).1.readyForTrading = true) ↔
        (∀ i ∈ ([] : List TradingInstrument), i.isSelected = true →
          ∀ iv ∈ tradingIntervals, noGapsOracle i.instrumentKey iv = [])) := by
  decide

/-- C1 amended: provided at least one instrument is selected,
`validateCompleteness` reports `ready_for_trading = true` exactly when every
selected instrument has zero gaps across all required timeframes, which is
exactly completion percentage 100; and `start_websocket_feed` is rejected —
returns failure, performing no connect and no subscribe and leaving state
untouched — whenever historical completeness has not been established.
(With an empty selection, `ready_for_trading` is false.) -/
theorem validateCompleteness_ready_iff_no_gaps :
    ∀ (check : GapOracle) (instruments : List TradingInstrument) (ra : Bool),
      0 < (instruments.filter (fun i => i.isSelected)).length →
      (((validateCompleteness check instruments ra).1.readyForTrading = true ↔
         ∀ i ∈ instruments, i.isSelected = true →
           ∀ iv ∈ tradingIntervals, check i.instrumentKey iv = []) ∧
       ((validateCompleteness check instruments ra).1.readyForTrading = true ↔
         (validateCompleteness check instruments ra).1.completionPercentage = 100) ∧
       (∀ (st : TDMState) (ok : Bool), st.historicalComplete = false →
          startWebsocketFeed st ok = (false, [], st))) := by
  intro check instruments ra htotal
  have hready : (validateCompleteness check instruments ra).1.readyForTrading =
      ((validateCompleteness check instruments ra).1.completionPercentage == 100) := rfl
  have hpct : (validateCompleteness check instruments ra).1.completionPercentage =
      if 0 < (instruments.filter (fun i => i.isSelected)).length then
        ((((instruments.filter (fun i => i.isSelected)).filter
              (fun i => instrumentComplete check i.instrumentKey)).length : ℚ) /
          (((instruments.filter (fun i => i.isSelected)).length : ℚ)) * 100)
      else 0 := rfl
  refine ⟨?_, ?_, ?_⟩
  · rw [hready, beq_iff_eq, hpct, if_pos htotal,
      ratio_eq_hundred_iff _ _ htotal, List.filter_length_eq_length]
    constructor
    · intro hall i hi hsel iv hiv
      have hmem : i ∈ instruments.filter (fun i => i.isSelected) :=
        List.mem_filter.mpr ⟨hi, hsel⟩
      have := List.all_eq_true.mp (hall i hmem) iv hiv
      exact eq_of_beq this
    · intro hall i hi
      obtain ⟨hmem, hsel⟩ := List.mem_filter.mp hi
      refine List.all_eq_true.mpr (fun iv hiv => ?_)
      exact beq_iff_eq.mpr (hall i hmem hsel iv hiv)
  · rw [hready, beq_iff_eq]
  · intro st ok h
    simp [startWebsocketFeed, h]

/-- Witness for C1 at one selected gap-free instrument. -/
theorem validateCompleteness_ready_iff_no_gaps_witness :
    ((validateCompleteness noGapsOracle [exInstrument] false).1.readyForTrading = true ↔
      ∀ i ∈ [exInstrument], i.isSelected = true →
        ∀ iv ∈ tradingIntervals, noGapsOracle i.instrumentKey iv = []) ∧
    ((validateCompleteness noGapsOracle [exInstrument] false).1.readyForTrading = true ↔
      (validateCompleteness noGapsOracle [exInstrument] false).1.completionPercentage = 100) ∧
    (∀ (st : TDMState) (ok : Bool), st.historicalComplete = false →
      startWebsocketFeed st ok = (false, [], st)) :=
  validateCompleteness_ready_iff_no_gaps noGapsOracle [exInstrument] false (by decide)

/-! ### C9: getCandles — sortedness, content, and insertion-order slicing -/

theorem insByStart_perm (c : Candle) (l : List Candle) :
    (insByStart c l).Perm (c :: l) := by
  induction l with
  | nil => exact List.Perm.refl _
  | cons x xs ih =>
    unfold insByStart
    split
    · exact (ih.cons x).trans (List.Perm.swap c x xs)
    · exact List.Perm.refl _

theorem insByStart_pairwise (c : Candle) (l : List Candle)
    (h : l.Pairwise (fun a b => a.start ≤ b.start)) :
    (insByStart c l).Pairwise (fun a b => a.start ≤ b.start) := by
  induction l with
  | nil => simp [insByStart]
  | cons x xs ih =>
    rw [List.pairwise_cons] at h
    unfold insByStart
    split
    · rw [List.pairwise_cons]
      refine ⟨fun b hb => ?_, ih h.2⟩
      rcases List.mem_cons.mp ((insByStart_perm c xs).mem_iff.mp hb) with hb | hb
      · subst hb
        assumption
      · exact h.1 b hb
    · rw [List.pairwise_cons]
      have hcx : c.start ≤ x.start := le_of_not_le (by assumption)
      refine ⟨fun b hb => ?_, List.pairwise_cons.mpr h⟩
      rcases List.mem_cons.mp hb with hb | hb
      · subst hb
        exact hcx
      · exact hcx.trans (h.1 b hb)

theorem foldl_insByStart_perm :
    ∀ (l acc : List Candle),
      (l.foldl (fun a c => insByStart c a) acc).Perm (acc ++ l) := by
  intro l
  induction l with
  | nil => intro acc; simp
  | cons c l ih =>
    intro acc
    have h1 := ih (insByStart c acc)
    have h2 : (insByStart c acc ++ l).Perm (acc ++ c :: l) :=
      ((insByStart_perm c acc).append_right l).trans List.perm_middle.symm
    exact h1.trans h2

theorem foldl_insByStart_pairwise :
    ∀ (l acc : List Candle),
      acc.Pairwise (fun a b => a.start ≤ b.start) →
      (l.foldl (fun a c => insByStart c a) acc).Pairwise
        (fun a b => a.start ≤ b.start) := by
  intro l
  induction l with
  | nil => intro acc h; simpa using h
  | cons c l ih =>
    intro acc h
    exact ih (insByStart c acc) (insByStart_pairwise c acc h)

theorem sortByStart_perm (l : List Candle) : (sortByStart l).Perm l := by
  simpa using foldl_insByStart_perm l []

theorem sortByStart_pairwise (l : List Candle) :
    (sortByStart l).Pairwise (fun a b => a.start ≤ b.start) :=
  foldl_insByStart_pairwise l [] (List.Pairwise.nil)

/-- C9 amended: `getCandles` returns a list sorted ascending by start whose
members are exactly the last `limit` closed candles in insertion order
(which are the most recent by start only if the closed map was populated in
ascending start order; `limit = 0` returns them all) together with the
working candle if present; for positive `limit` at most `limit + 1` candles
are returned. -/
theorem getCandles_sorted_slice_spec :
    ∀ (st : AggService) (symbol : String) (tf : Timeframe) (limit : Nat),
      (getCandles st symbol tf limit).Pairwise (fun a b => a.start ≤ b.start) ∧
      (getCandles st symbol tf limit).Perm
        (lastSlice limit (omapValues (st.stmap symbol tf).closed) ++
          (st.stmap symbol tf).working.toList) ∧
      (0 < limit → (getCandles st symbol tf limit).length ≤ limit + 1) := by
  intro st symbol tf limit
  refine ⟨sortByStart_pairwise _, sortByStart_perm _, fun hpos => ?_⟩
  show (sortByStart (lastSlice limit (omapValues (st.stmap symbol tf).closed) ++
      (st.stmap symbol tf).working.toList)).length ≤ limit + 1
  rw [(sortByStart_perm _).length_eq]
  have h1 : (lastSlice limit (omapValues (st.stmap symbol tf).closed)).length ≤ limit := by
    unfold lastSlice
    rw [if_neg (Nat.pos_iff_ne_zero.mp hpos)]
    rw [List.length_drop]
    omega
  have h2 : ((st.stmap symbol tf).working.toList).length ≤ 1 := by
    cases (st.stmap symbol tf).working <;> simp
  rw [List.length_append]
  omega

/-- Witness for C9 on a populated series (limit 1). -/
theorem getCandles_sorted_slice_spec_witness :
    (getCandles outOfOrderAgg "X" Timeframe.m1 1).Pairwise
      (fun a b => a.start ≤ b.start) ∧
    (getCandles outOfOrderAgg "X" Timeframe.m1 1).Perm
      (lastSlice 1 (omapValues (outOfOrderAgg.stmap "X" Timeframe.m1).closed) ++
        (outOfOrderAgg.stmap "X" Timeframe.m1).working.toList) ∧
    (0 < 1 → (getCandles outOfOrderAgg "X" Timeframe.m1 1).length ≤ 1 + 1) :=
  getCandles_sorted_slice_spec outOfOrderAgg "X" Timeframe.m1 1

/-- C9 counterexample: when the backfill merge inserted the newer candle
first, the closed map's insertion order is not start order, and
`getCandles` with `limit = 1` returns the older candle while the strictly
most recent closed candle (by start) is left out — refuting "the most recent
by start time". -/
theorem getCandles_not_most_recent_by_start :
    getCandles outOfOrderAgg "X" Timeframe.m1 1 = [cOld] ∧
    cNew ∈ omapValues (outOfOrderAgg.stmap "X" Timeframe.m1).closed ∧
    cOld.start < cNew.start ∧
    ¬ (∀ c ∈ omapValues (outOfOrderAgg.stmap "X" Timeframe.m1).closed,
        ∀ r ∈ getCandles outOfOrderAgg "X" Timeframe.m1 1,
          r.start < c.start → c ∈ getCandles outOfOrderAgg "X" Timeframe.m1 1) := by
  refine ⟨by decide, by decide, by decide, ?_⟩
  intro h
  have := h cNew (by decide) cOld (by decide) (by decide)
  exact absurd this (by decide)

/-! ### C4: the rate limiter never exceeds its sliding-window budget -/

theorem foldl_min_mem (ts : List ℚ) : ∀ x : ℚ, ts.foldl min x ∈ x :: ts := by
  induction ts with
  | nil => intro x; simp
  | cons y ts ih =>
    intro x
    rw [List.foldl_cons]
    rcases List.mem_cons.mp (ih (min x y)) with h | h
    · rcases min_choice x y with h' | h'
      · rw [h, h']
        exact List.mem_cons_self _ _
      · rw [h, h']
        exact List.mem_cons_of_mem _ (List.mem_cons_self _ _)
    · exact List.mem_cons_of_mem _ (List.mem_cons_of_mem _ h)

theorem foldl_min_le (ts : List ℚ) :
    ∀ (x a : ℚ), a ∈ x :: ts → ts.foldl min x ≤ a := by
  induction ts with
  | nil =>
    intro x a ha
    rw [List.mem_singleton] at ha
    subst ha
    exact le_refl _
  | cons y ts ih =>
    intro x a ha
    rw [List.foldl_cons]
    rcases List.mem_cons.mp ha with ha | ha
    · rw [ha]
      exact (ih (min x y) (min x y) (List.mem_cons_self _ _)).trans (min_le_left x y)
    · rcases List.mem_cons.mp ha with ha | ha
      · rw [ha]
        exact (ih (min x y) (min x y) (List.mem_cons_self _ _)).trans (min_le_right x y)
      · exact ih (min x y) a (List.mem_cons_of_mem _ ha)

theorem listMin_mem {l : List ℚ} (h : l ≠ []) : listMin l ∈ l := by
  cases l with
  | nil => exact absurd rfl h
  | cons x ts => exact foldl_min_mem ts x

theorem listMin_le {l : List ℚ} {a : ℚ} (ha : a ∈ l) : listMin l ≤ a := by
  cases l with
  | nil => cases ha
  | cons x ts => exact foldl_min_le ts x a ha

theorem windowCount_append (x : ℚ) (l1 l2 : List ℚ) :
    windowCount x (l1 ++ l2) = windowCount x l1 + windowCount x l2 := by
  simp [windowCount, List.filter_append]

theorem windowCount_le_length (x : ℚ) (l : List ℚ) :
    windowCount x l ≤ l.length :=
  List.length_filter_le _ _

theorem filter_split_length (p q : ℚ → Bool) (l : List ℚ) :
    (l.filter p).length =
      ((l.filter q).filter p).length + ((l.filter (fun a => !q a)).filter p).length := by
  induction l with
  | nil => simp
  | cons a l ih =>
    by_cases hq : q a <;> by_cases hp : p a <;>
      simp [List.filter_cons, hq, hp, ih] <;> omega

theorem pruneTimes_sublist (now : ℚ) (ts : List ℚ) :
    (pruneTimes now ts).Sublist ts :=
  List.filter_sublist ts

theorem windowCount_mono {l1 l2 : List ℚ} (h : l1.Sublist l2) (x : ℚ) :
    windowCount x l1 ≤ windowCount x l2 :=
  (h.filter (inWindow x)).length_le

theorem mem_pruneTimes {now t : ℚ} {ts : List ℚ} (h : t ∈ pruneTimes now ts) :
    t ∈ ts ∧ now - 60 < t := by
  have := List.mem_filter.mp h
  exact ⟨this.1, of_decide_eq_true this.2⟩

theorem waitResume_ge (rpm : Nat) (now : ℚ) (ts : List ℚ) :
    now ≤ waitResume rpm now ts := by
  simp only [waitResume]
  split
  · split
    · linarith [le_refl now]
    · exact le_refl now
  · exact le_refl now

theorem waitResume_sleeps_exactly (rpm : Nat) (h0 : 0 < rpm) (now : ℚ) (ts : List ℚ)
    (hlen : rpm ≤ (pruneTimes now ts).length) :
    waitResume rpm now ts = listMin (pruneTimes now ts) + 61 := by
  have hne : pruneTimes now ts ≠ [] :=
    List.ne_nil_of_length_pos (lt_of_lt_of_le h0 hlen)
  have hold : now - 60 < listMin (pruneTimes now ts) :=
    (mem_pruneTimes (listMin_mem hne)).2
  unfold waitResume
  rw [if_pos hlen, if_pos (by linarith)]
  ring

theorem runSched_ge (rpm : Nat) :
    ∀ (steps : List (ℚ × ℚ)) (clock : ℚ) (ts : List ℚ),
      (∀ p ∈ steps, 0 ≤ p.1 ∧ 0 ≤ p.2) →
      ∀ r ∈ runSched rpm steps clock ts, clock ≤ r := by
  intro steps
  induction steps with
  | nil => intro clock ts _ r hr; simp [runSched] at hr
  | cons step rest ih =>
    obtain ⟨gap, d⟩ := step
    intro clock ts hok r hr
    obtain ⟨⟨hgap, hd⟩, hok'⟩ : (0 ≤ gap ∧ 0 ≤ d) ∧ ∀ p ∈ rest, 0 ≤ p.1 ∧ 0 ≤ p.2 :=
      ⟨hok _ (List.mem_cons_self _ _), fun p hp => hok p (List.mem_cons_of_mem _ hp)⟩
    have hrec : clock ≤ waitResume rpm (clock + gap) ts + d := by
      have := waitResume_ge rpm (clock + gap) ts
      linarith
    simp only [runSched, schedStep] at hr
    rcases List.mem_cons.mp hr with hr | hr
    · subst hr
      exact hrec
    · exact hrec.trans (ih _ _ hok' r hr)

theorem runSched_window_invariant (rpm : Nat) (h0 : 0 < rpm) :
    ∀ (steps : List (ℚ × ℚ)) (clock : ℚ) (ts : List ℚ),
      (∀ p ∈ steps, 0 ≤ p.1 ∧ 0 ≤ p.2) →
      (∀ t ∈ ts, t ≤ clock) →
      (∀ x, windowCount x ts ≤ rpm) →
      ∀ x, windowCount x (ts ++ runSched rpm steps clock ts) ≤ rpm := by
  intro steps
  induction steps with
  | nil =>
    intro clock ts _ _ hwin x
    simpa [runSched] using hwin x
  | cons step rest ih =>
    obtain ⟨gap, d⟩ := step
    intro clock ts hok hle hwin x
    obtain ⟨⟨hgap, hd⟩, hok'⟩ : (0 ≤ gap ∧ 0 ≤ d) ∧ ∀ p ∈ rest, 0 ≤ p.1 ∧ 0 ≤ p.2 :=
      ⟨hok _ (List.mem_cons_self _ _), fun p hp => hok p (List.mem_cons_of_mem _ hp)⟩
    -- one scheduler step
    have hrun : runSched rpm ((gap, d) :: rest) clock ts =
        (waitResume rpm (clock + gap) ts + d) ::
          runSched rpm rest (waitResume rpm (clock + gap) ts + d)
            (pruneTimes (clock + gap) ts ++ [waitResume rpm (clock + gap) ts + d]) := by
      simp [runSched, schedStep]
    set now := clock + gap with hnow
    set rec_ := waitResume rpm now ts + d with hrecdef
    set P := pruneTimes now ts with hP
    set H := runSched rpm rest rec_ (P ++ [rec_]) with hH
    have f1 : ∀ t ∈ ts, t ≤ now := fun t h => (hle t h).trans (by linarith)
    have f2 : ∀ t ∈ P, t ≤ now := fun t h => f1 t (mem_pruneTimes h).1
    have f3 : now ≤ rec_ := by
      have := waitResume_ge rpm now ts
      linarith
    have f4 : P.length = windowCount (now - 60) ts := by
      show (ts.filter (fun t => decide (now - 60 < t))).length =
        (ts.filter (inWindow (now - 60))).length
      congr 1
      apply List.filter_congr
      intro t ht
      have h := f1 t ht
      show decide (now - 60 < t) = inWindow (now - 60) t
      unfold inWindow
      rw [decide_eq_decide]
      constructor
      · intro h1
        exact ⟨h1, by linarith⟩
      · intro h1
        exact h1.1
    have hlenP : P.length ≤ rpm := by
      rw [f4]
      exact hwin (now - 60)
    have f5 : ∀ x', windowCount x' (P ++ [rec_]) ≤ rpm := by
      intro x'
      rw [windowCount_append]
      by_cases hrw : inWindow x' rec_ = true
      · have h1 : windowCount x' [rec_] = 1 := by
          simp [windowCount, List.filter, hrw]
        rw [h1]
        have h2 : windowCount x' P < rpm := by
          by_cases hcap : rpm ≤ P.length
          · have hsleep : rec_ = listMin P + 61 + d := by
              rw [hrecdef, waitResume_sleeps_exactly rpm h0 now ts hcap]
            have hne : P ≠ [] := List.ne_nil_of_length_pos (lt_of_lt_of_le h0 hcap)
            have homem : listMin P ∈ P := listMin_mem hne
            obtain ⟨hx1, hx2⟩ : x' < rec_ ∧ rec_ ≤ x' + 60 :=
              of_decide_eq_true hrw
            have hofail : inWindow x' (listMin P) = false := by
              unfold inWindow
              apply decide_eq_false
              intro hcontra
              have : listMin P ≤ x' := by linarith [hsleep, hx2]
              linarith [hcontra.1]
            have hstrict : windowCount x' P < P.length :=
              List.length_filter_lt_length_iff_exists.mpr
                ⟨listMin P, homem, by simp [hofail]⟩
            omega
          · have := windowCount_le_length x' P
            omega
        omega
      · have h1 : windowCount x' [rec_] = 0 := by
          simp [windowCount, List.filter, hrw]
        rw [h1]
        have h2 : windowCount x' P ≤ windowCount x' ts :=
          windowCount_mono (pruneTimes_sublist now ts) x'
        have h3 := hwin x'
        omega
    have f6 : ∀ t ∈ P ++ [rec_], t ≤ rec_ := by
      intro t ht
      rcases List.mem_append.mp ht with ht | ht
      · exact (f2 t ht).trans f3
      · rw [List.mem_singleton] at ht
        subst ht
        exact le_refl _
    have IH := ih rec_ (P ++ [rec_]) hok' f6 f5
    -- assemble the bound for the full history
    rw [hrun, windowCount_append]
    have hsplit : windowCount x ts =
        windowCount x P + windowCount x (ts.filter (fun a => !(decide (now - 60 < a)))) := by
      show (ts.filter (inWindow x)).length = _
      rw [filter_split_length (inWindow x) (fun t => decide (now - 60 < t)) ts]
      rfl
    have hconsapp : windowCount x (rec_ :: H) = windowCount x [rec_] + windowCount x H := by
      have : rec_ :: H = [rec_] ++ H := rfl
      rw [this, windowCount_append]
    by_cases hAny : windowCount x (rec_ :: H) = 0
    · rw [hAny]
      have := hwin x
      omega
    · -- some recorded time of this step or later lies in the window
      have hpos : 0 < ((rec_ :: H).filter (inWindow x)).length := Nat.pos_of_ne_zero hAny
      obtain ⟨r, hrmem⟩ := List.exists_mem_of_length_pos hpos
      obtain ⟨hrl, hrw⟩ := List.mem_filter.mp hrmem
      have hrge : rec_ ≤ r := by
        rcases List.mem_cons.mp hrl with hr | hr
        · subst hr; exact le_refl _
        · exact runSched_ge rpm rest rec_ (P ++ [rec_]) hok' r hr
      obtain ⟨hx1, hx2⟩ : x < r ∧ r ≤ x + 60 := of_decide_eq_true hrw
      have hD : windowCount x (ts.filter (fun a => !(decide (now - 60 < a)))) = 0 := by
        show (List.filter (inWindow x) _).length = 0
        rw [List.length_eq_zero]
        rw [List.filter_eq_nil_iff]
        intro a ha
        obtain ⟨hain, hapred⟩ := List.mem_filter.mp ha
        have ha60 : ¬ (now - 60 < a) := by
          intro hcontra
          rw [decide_eq_true hcontra] at hapred
          simp at hapred
        have hale : a ≤ now - 60 := le_of_not_lt ha60
        intro hcontra
        obtain ⟨hc1, hc2⟩ := of_decide_eq_true hcontra
        have hnr : now ≤ rec_ := f3
        linarith
      have hIHx := IH x
      rw [← hH] at hIHx
      rw [windowCount_append, windowCount_append] at hIHx
      omega

/-- C4: for any drain of the fetch queue (non-negative inter-request gaps
and processing durations), no 60-second sliding window ever contains more
than 25 issued-request timestamps; when 25 or more pruned timestamps remain
at the limiter check, the task sleeps exactly until the oldest recorded
timestamp leaves the 60-second window plus a 1-second buffer
(`oldest + 61`); and concretely, draining 30 instantaneous requests from
time 0 issues the first 25 at time 0 and delays request #26 (and the rest)
to time 61. -/
theorem rateLimiter_sliding_window_bound :
    (∀ (steps : List (ℚ × ℚ)) (c0 x : ℚ),
        (∀ p ∈ steps, 0 ≤ p.1 ∧ 0 ≤ p.2) →
        windowCount x (runSched REQUESTS_PER_MINUTE steps c0 []) ≤
          REQUESTS_PER_MINUTE) ∧
    (∀ (now : ℚ) (ts : List ℚ),
        REQUESTS_PER_MINUTE ≤ (pruneTimes now ts).length →
        waitResume REQUESTS_PER_MINUTE now ts = listMin (pruneTimes now ts) + 61) ∧
    (runSched REQUESTS_PER_MINUTE (List.replicate 30 (0, 0)) 0 [] =
      List.replicate 25 0 ++ [61, 61, 61, 61, 61]) := by
  refine ⟨fun steps c0 x hok => ?_, fun now ts hlen => ?_, ?_⟩
  · have h := runSched_window_invariant REQUESTS_PER_MINUTE (by norm_num [REQUESTS_PER_MINUTE])
      steps c0 [] hok (by intro t ht; cases ht) (by intro x'; simp [windowCount]) x
    simpa using h
  · exact waitResume_sleeps_exactly REQUESTS_PER_MINUTE
      (by norm_num [REQUESTS_PER_MINUTE]) now ts hlen
  · norm_num [runSched, schedStep, waitResume, pruneTimes, listMin,
      REQUESTS_PER_MINUTE, List.replicate, List.filter_cons]

/-- Witness for C4: a singleton drain from time 0, window at 0, and the
limiter-at-capacity formula on 25 tracked timestamps. -/
theorem rateLimiter_sliding_window_bound_witness :
    windowCount 0 (runSched REQUESTS_PER_MINUTE [((0 : ℚ), (0 : ℚ))] 0 []) ≤
      REQUESTS_PER_MINUTE ∧
    waitResume REQUESTS_PER_MINUTE 0 (List.replicate 25 (0 : ℚ)) =
      listMin (pruneTimes 0 (List.replicate 25 (0 : ℚ))) + 61 :=
  ⟨rateLimiter_sliding_window_bound.1 [((0 : ℚ), (0 : ℚ))] 0 0
      (by intro p hp; rw [List.mem_singleton] at hp; subst hp; exact ⟨le_refl 0, le_refl 0⟩),
   rateLimiter_sliding_window_bound.2.1 0 (List.replicate 25 (0 : ℚ))
      (by norm_num [pruneTimes, List.replicate, List.filter_cons, REQUESTS_PER_MINUTE])⟩

/-! ### C5: ordered-map lemmas for the backfill merge -/

theorem omapMember_iff (k : Int) (m : OMap) :
    omapMember k m = true ↔ k ∈ omapKeys m := by
  unfold omapMember omapKeys
  rw [List.any_eq_true]
  constructor
  · rintro ⟨p, hp, hpk⟩
    exact List.mem_map.mpr ⟨p, hp, eq_of_beq hpk⟩
  · intro hk
    obtain ⟨p, hp, hpk⟩ := List.mem_map.mp hk
    exact ⟨p, hp, beq_iff_eq.mpr hpk⟩

theorem omapMember_eq_false_iff (k : Int) (m : OMap) :
    omapMember k m = false ↔ k ∉ omapKeys m := by
  rw [← omapMember_iff]
  cases omapMember k m <;> simp

theorem omapKeys_assign_of_member {k : Int} {m : OMap} (v : Candle)
    (h : omapMember k m = true) :
    omapKeys (omapAssign k v m) = omapKeys m := by
  unfold omapAssign
  rw [if_pos h]
  unfold omapKeys
  rw [List.map_map]
  apply List.map_congr_left
  intro p _
  by_cases hpk : p.1 = k
  · simp [Function.comp, beq_iff_eq, hpk]
  · simp [Function.comp, beq_iff_eq, hpk]

theorem omapAssign_of_not_member {k : Int} {m : OMap} (v : Candle)
    (h : omapMember k m = false) :
    omapAssign k v m = m ++ [(k, v)] := by
  unfold omapAssign
  rw [h]
  simp

theorem length_le_omapAssign (k : Int) (v : Candle) (m : OMap) :
    m.length ≤ (omapAssign k v m).length := by
  unfold omapAssign
  split
  · rw [List.length_map]
  · rw [List.length_append]
    omega

theorem omapKeys_assign_length (k : Int) (v : Candle) (m : OMap) :
    (omapAssign k v m).length = m.length ∨
      (omapAssign k v m).length = m.length + 1 := by
  unfold omapAssign
  split
  · left
    rw [List.length_map]
  · right
    rw [List.length_append]
    rfl

theorem popToCap_eq_self {cap : Nat} {m : OMap} (h : m.length ≤ cap) :
    popToCap cap m = m := by
  cases m with
  | nil => rfl
  | cons p rest =>
    unfold popToCap
    rw [if_neg]
    simp only [List.length_cons] at h
    omega

theorem popToCap_cons_of_over {cap : Nat} {p : Int × Candle} {rest : OMap}
    (h : cap < rest.length + 1) :
    popToCap cap (p :: rest) = popToCap cap rest := by
  show (if rest.length + 1 > cap then popToCap cap rest else p :: rest) =
    popToCap cap rest
  rw [if_pos h]

theorem popToCap_sublist (cap : Nat) (m : OMap) :
    (popToCap cap m).Sublist m := by
  induction m with
  | nil => exact List.Sublist.refl _
  | cons p rest ih =>
    unfold popToCap
    split
    · exact ih.trans (List.sublist_cons_self p rest)
    · exact List.Sublist.refl _

theorem popToCap_length (cap : Nat) (m : OMap) :
    (popToCap cap m).length = min m.length cap := by
  induction m with
  | nil => simp [popToCap]
  | cons p rest ih =>
    unfold popToCap
    split
    · rw [ih]
      simp only [List.length_cons]
      omega
    · simp only [List.length_cons]
      omega

theorem mem_popToCap {cap : Nat} {m : OMap} {p : Int × Candle}
    (h : p ∈ popToCap cap m) : p ∈ m :=
  (popToCap_sublist cap m).mem h

theorem omapLookup_eq_none_of_not_mem {k : Int} {m : OMap}
    (h : k ∉ omapKeys m) : omapLookup k m = none := by
  have hf : List.find? (fun p => p.1 == k) m = none :=
    List.find?_eq_none.mpr (fun p hp hpk => h (List.mem_map.mpr ⟨p, hp, eq_of_beq hpk⟩))
  unfold omapLookup
  rw [hf]
  rfl

theorem omapLookup_append (k : Int) (m1 m2 : OMap) :
    omapLookup k (m1 ++ m2) = (omapLookup k m1).or (omapLookup k m2) := by
  unfold omapLookup
  rw [List.find?_append]
  cases List.find? (fun p => p.1 == k) m1 <;> simp

theorem find?_overwrite_ne {k j : Int} (hne : k ≠ j) (v : Candle) :
    ∀ m : OMap,
      List.find? (fun p => p.1 == j) (m.map (fun p => if p.1 == k then (k, v) else p)) =
        List.find? (fun p => p.1 == j) m := by
  intro m
  induction m with
  | nil => rfl
  | cons p rest ih =>
    rw [List.map_cons]
    by_cases hpk : p.1 = k
    · have h1 : ((k, v).1 == j) = false := beq_eq_false_iff_ne.mpr hne
      have h2 : (p.1 == j) = false := by
        rw [hpk]
        exact beq_eq_false_iff_ne.mpr hne
      have h3 : (if (p.1 == k) = true then (k, v) else p) = (k, v) := by
        simp [beq_iff_eq, hpk]
      rw [h3, List.find?_cons_of_neg, List.find?_cons_of_neg]
      · exact ih
      · simp [h2]
      · simp [h1]
    · have h3 : (if (p.1 == k) = true then (k, v) else p) = p := by
        simp [beq_iff_eq, hpk]
      rw [h3]
      cases hpj : (p.1 == j) with
      | false =>
        rw [List.find?_cons_of_neg, List.find?_cons_of_neg]
        · exact ih
        · simp [hpj]
        · simp [hpj]
      | true =>
        rw [List.find?_cons_of_pos, List.find?_cons_of_pos]
        · exact hpj
        · exact hpj

theorem find?_overwrite_self (k : Int) (v : Candle) :
    ∀ m : OMap, omapMember k m = true →
      List.find? (fun p => p.1 == k) (m.map (fun p => if p.1 == k then (k, v) else p)) =
        some (k, v) := by
  intro m
  induction m with
  | nil => intro hmem; simp [omapMember] at hmem
  | cons p rest ih =>
    intro hmem
    rw [List.map_cons]
    by_cases hpk : p.1 = k
    · have h3 : (if (p.1 == k) = true then (k, v) else p) = (k, v) := by
        simp [beq_iff_eq, hpk]
      rw [h3, List.find?_cons_of_pos]
      simp
    · have h3 : (if (p.1 == k) = true then (k, v) else p) = p := by
        simp [beq_iff_eq, hpk]
      rw [h3, List.find?_cons_of_neg]
      · apply ih
        unfold omapMember at hmem ⊢
        rw [List.any_cons] at hmem
        have : (p.1 == k) = false := beq_eq_false_iff_ne.mpr hpk
        rw [this] at hmem
        simpa using hmem
      · simp [beq_eq_false_iff_ne.mpr hpk]

theorem omapLookup_assign_ne {k j : Int} (hne : k ≠ j) (v : Candle) (m : OMap) :
    omapLookup j (omapAssign k v m) = omapLookup j m := by
  unfold omapAssign
  split
  · unfold omapLookup
    rw [find?_overwrite_ne hne]
  · rw [omapLookup_append]
    have h1 : omapLookup j [(k, v)] = none := by
      unfold omapLookup
      simp [List.find?, beq_eq_false_iff_ne.mpr hne]
    rw [h1, Option.or_none]

theorem omapLookup_assign_self (k : Int) (v : Candle) (m : OMap) :
    omapLookup k (omapAssign k v m) = some v := by
  unfold omapAssign
  split
  · unfold omapLookup
    rw [find?_overwrite_self k v m (by assumption)]
    rfl
  · have hnm : k ∉ omapKeys m := by
      apply (omapMember_eq_false_iff k m).mp
      rename_i hcond
      exact Bool.not_eq_true _ ▸ eq_false_of_ne_true hcond
    rw [omapLookup_append, omapLookup_eq_none_of_not_mem hnm, Option.none_or]
    unfold omapLookup
    simp [List.find?]

theorem mergePure_cons (now : Int) (c : Candle) (L : List Candle) (m : OMap) :
    mergePure now (c :: L) m =
      mergePure now L (if c.end_ ≤ now then omapAssign c.start c m else m) := rfl

theorem mergeBackfill_cons (now : Int) (c : Candle) (L : List Candle) (m : OMap) :
    mergeBackfill now (c :: L) m =
      mergeBackfill now L
        (if c.end_ ≤ now then omapInsert CLOSED_CAP c.start c m else m) := rfl

theorem mem_omapKeys_assign {j : Int} (k : Int) (v : Candle) (m : OMap)
    (h : j ∈ omapKeys m) : j ∈ omapKeys (omapAssign k v m) := by
  cases hm : omapMember k m
  · rw [omapAssign_of_not_member v hm]
    unfold omapKeys
    rw [List.map_append]
    exact List.mem_append_left _ h
  · rw [omapKeys_assign_of_member v hm]
    exact h

theorem self_mem_omapKeys_assign (k : Int) (v : Candle) (m : OMap) :
    k ∈ omapKeys (omapAssign k v m) := by
  cases hm : omapMember k m
  · rw [omapAssign_of_not_member v hm]
    unfold omapKeys
    rw [List.map_append]
    apply List.mem_append_right
    simp
  · rw [omapKeys_assign_of_member v hm]
    exact (omapMember_iff k m).mp hm

theorem mem_omapKeys_mergePure (now : Int) :
    ∀ (L : List Candle) (m : OMap) (j : Int),
      j ∈ omapKeys m → j ∈ omapKeys (mergePure now L m) := by
  intro L
  induction L with
  | nil => intro m j h; exact h
  | cons c L ih =>
    intro m j h
    rw [mergePure_cons]
    apply ih
    split
    · exact mem_omapKeys_assign _ _ _ h
    · exact h

theorem writeKey_mem_mergePure (now : Int) :
    ∀ (L : List Candle) (m : OMap) (c : Candle),
      c ∈ L → c.end_ ≤ now → c.start ∈ omapKeys (mergePure now L m) := by
  intro L
  induction L with
  | nil => intro m c hc; cases hc
  | cons c0 L ih =>
    intro m c hc hce
    rw [mergePure_cons]
    rcases List.mem_cons.mp hc with hc | hc
    · subst hc
      apply mem_omapKeys_mergePure
      rw [if_pos hce]
      exact self_mem_omapKeys_assign _ _ _
    · exact ih _ c hc hce

theorem omapLookup_mergePure (now k : Int) :
    ∀ (L : List Candle) (m : OMap),
      omapLookup k (mergePure now L m) =
        L.foldl (writeStep now k) (omapLookup k m) := by
  intro L
  induction L with
  | nil => intro m; rfl
  | cons c L ih =>
    intro m
    rw [mergePure_cons, List.foldl_cons, ih]
    congr 1
    unfold writeStep
    by_cases hce : c.end_ ≤ now
    · rw [if_pos hce]
      by_cases hck : c.start = k
      · rw [if_pos ⟨hce, hck⟩]
        subst hck
        exact omapLookup_assign_self _ _ _
      · rw [if_neg (by tauto)]
        exact omapLookup_assign_ne hck _ _
    · rw [if_neg hce, if_neg (by tauto)]

theorem foldl_writeStep_cases (now k : Int) :
    ∀ (L : List Candle) (x : Option Candle),
      L.foldl (writeStep now k) x = x ∨
        ∀ y, L.foldl (writeStep now k) y = L.foldl (writeStep now k) x := by
  intro L
  induction L using List.reverseRecOn with
  | nil => intro x; left; rfl
  | append_singleton L c ih =>
    intro x
    by_cases hc : c.end_ ≤ now ∧ c.start = k
    · right
      intro y
      simp only [List.foldl_append, List.foldl_cons, List.foldl_nil]
      unfold writeStep
      rw [if_pos hc, if_pos hc]
    · have hws : ∀ a, writeStep now k a c = a := fun a => by
        unfold writeStep
        rw [if_neg hc]
      simp only [List.foldl_append, List.foldl_cons, List.foldl_nil, hws]
      rcases ih x with h | h
      · left; exact h
      · right
        intro y
        exact h y

theorem foldl_writeStep_idem (now k : Int) (L : List Candle) (x : Option Candle) :
    L.foldl (writeStep now k) (L.foldl (writeStep now k) x) =
      L.foldl (writeStep now k) x := by
  rcases foldl_writeStep_cases now k L x with h | h
  · rw [h]
    exact h
  · exact h _

theorem omapKeys_mergePure_of_present (now : Int) :
    ∀ (L : List Candle) (m : OMap),
      (∀ c ∈ L, c.end_ ≤ now → c.start ∈ omapKeys m) →
      omapKeys (mergePure now L m) = omapKeys m := by
  intro L
  induction L with
  | nil => intro m _; rfl
  | cons c L ih =>
    intro m hpres
    rw [mergePure_cons]
    by_cases hce : c.end_ ≤ now
    · rw [if_pos hce]
      have hm : omapMember c.start m = true :=
        (omapMember_iff _ _).mpr (hpres c (List.mem_cons_self _ _) hce)
      have hkeys := omapKeys_assign_of_member c hm
      rw [ih _ (fun c2 hc2 hce2 => by
        rw [hkeys]
        exact hpres c2 (List.mem_cons_of_mem _ hc2) hce2), hkeys]
    · rw [if_neg hce]
      exact ih _ (fun c2 hc2 hce2 => hpres c2 (List.mem_cons_of_mem _ hc2) hce2)

theorem omapKeys_assign_nodup {m : OMap} (k : Int) (v : Candle)
    (h : (omapKeys m).Nodup) : (omapKeys (omapAssign k v m)).Nodup := by
  cases hm : omapMember k m
  · rw [omapAssign_of_not_member v hm]
    unfold omapKeys
    rw [List.map_append, List.nodup_append]
    refine ⟨h, List.nodup_singleton _, ?_⟩
    intro a ha hb
    simp only [List.map_cons, List.map_nil, List.mem_singleton] at hb
    exact (omapMember_eq_false_iff k m).mp hm (hb ▸ ha)
  · rw [omapKeys_assign_of_member v hm]
    exact h

theorem omapKeys_popToCap_nodup {cap : Nat} {m : OMap}
    (h : (omapKeys m).Nodup) : (omapKeys (popToCap cap m)).Nodup :=
  List.Nodup.sublist ((popToCap_sublist cap m).map Prod.fst) h

theorem mergeBackfill_nodup (now : Int) :
    ∀ (L : List Candle) (m : OMap),
      (omapKeys m).Nodup → (omapKeys (mergeBackfill now L m)).Nodup := by
  intro L
  induction L with
  | nil => intro m h; exact h
  | cons c L ih =>
    intro m h
    rw [mergeBackfill_cons]
    apply ih
    split
    · exact omapKeys_popToCap_nodup (omapKeys_assign_nodup _ _ h)
    · exact h

theorem omap_ext :
    ∀ (m1 m2 : OMap),
      omapKeys m1 = omapKeys m2 →
      (omapKeys m1).Nodup →
      (∀ k, omapLookup k m1 = omapLookup k m2) →
      m1 = m2 := by
  intro m1
  induction m1 with
  | nil =>
    intro m2 hk _ _
    cases m2 with
    | nil => rfl
    | cons q s => simp [omapKeys] at hk
  | cons p t ih =>
    intro m2 hk hnd hl
    cases m2 with
    | nil => simp [omapKeys] at hk
    | cons q s =>
      simp only [omapKeys, List.map_cons, List.cons.injEq] at hk
      obtain ⟨hk1, hk2⟩ := hk
      have e1 : omapLookup p.1 (p :: t) = some p.2 := by
        unfold omapLookup
        rw [List.find?_cons_of_pos _ (by simp)]
        rfl
      have e2 : omapLookup p.1 (q :: s) = some q.2 := by
        unfold omapLookup
        rw [List.find?_cons_of_pos _ (by simp [beq_iff_eq, hk1.symm])]
        rfl
      have hval : p.2 = q.2 := by
        have := (hl p.1).symm.trans e1
        rw [e2] at this
        exact (Option.some.inj this).symm
      have hpq : p = q := Prod.ext hk1 hval
      simp only [omapKeys, List.map_cons, List.nodup_cons] at hnd
      have htail : t = s := by
        apply ih s hk2 hnd.2
        intro k
        by_cases hkp : k = p.1
        · subst hkp
          have hnots : p.1 ∉ omapKeys s := by
            show p.1 ∉ List.map Prod.fst s
            rw [← hk2]
            exact hnd.1
          rw [omapLookup_eq_none_of_not_mem hnd.1,
            omapLookup_eq_none_of_not_mem hnots]
        · have hstep := hl k
          unfold omapLookup at hstep
          rw [List.find?_cons_of_neg _ (by simp [beq_iff_eq]; omega),
            List.find?_cons_of_neg _ (by simp [beq_iff_eq, ← hk1]; omega)] at hstep
          exact hstep
      rw [hpq, htail]

theorem mem_omapInsert {cap : Nat} {k : Int} {v : Candle} {m : OMap}
    {p : Int × Candle} (h : p ∈ omapInsert cap k v m) : p ∈ m ∨ p = (k, v) := by
  have h1 := mem_popToCap h
  unfold omapAssign at h1
  revert h1
  split
  · intro h1
    obtain ⟨q, hq, hfq⟩ := List.mem_map.mp h1
    by_cases hqk : q.1 = k
    · right
      rw [← hfq]
      simp [beq_iff_eq, hqk]
    · left
      rw [← hfq]
      simpa [beq_iff_eq, hqk] using hq
  · intro h1
    rcases List.mem_append.mp h1 with h1 | h1
    · left; exact h1
    · right; simpa using h1

theorem mem_mergeBackfill (now : Int) :
    ∀ (L : List Candle) (m : OMap) (p : Int × Candle),
      p ∈ mergeBackfill now L m →
      p ∈ m ∨ ∃ c ∈ L, c.end_ ≤ now ∧ p = (c.start, c) := by
  intro L
  induction L with
  | nil => intro m p h; left; exact h
  | cons c L ih =>
    intro m p h
    rw [mergeBackfill_cons] at h
    rcases ih _ p h with h1 | h1
    · revert h1
      split
      · intro h1
        rcases mem_omapInsert h1 with h2 | h2
        · left; exact h2
        · right
          exact ⟨c, List.mem_cons_self _ _, by assumption, h2⟩
      · intro h1
        left
        exact h1
    · right
      obtain ⟨c2, hc2, hce2, hp2⟩ := h1
      exact ⟨c2, List.mem_cons_of_mem _ hc2, hce2, hp2⟩

theorem mergeBackfill_eq_mergePure_of_present (now : Int) :
    ∀ (L : List Candle) (m : OMap),
      (∀ c ∈ L, c.end_ ≤ now → omapMember c.start m = true) →
      m.length ≤ CLOSED_CAP →
      mergeBackfill now L m = mergePure now L m := by
  intro L
  induction L with
  | nil => intro m _ _; rfl
  | cons c L ih =>
    intro m hpres hlen
    rw [mergeBackfill_cons, mergePure_cons]
    by_cases hce : c.end_ ≤ now
    · rw [if_pos hce, if_pos hce]
      have hm : omapMember c.start m = true :=
        hpres c (List.mem_cons_self _ _) hce
      have hasn : (omapAssign c.start c m).length = m.length := by
        unfold omapAssign
        rw [if_pos hm, List.length_map]
      have hins : omapInsert CLOSED_CAP c.start c m = omapAssign c.start c m := by
        unfold omapInsert
        apply popToCap_eq_self
        rw [hasn]
        exact hlen
      rw [hins]
      apply ih
      · intro c2 hc2 hce2
        rw [omapMember_iff, omapKeys_assign_of_member c hm, ← omapMember_iff]
        exact hpres c2 (List.mem_cons_of_mem _ hc2) hce2
      · rw [hasn]
        exact hlen
    · rw [if_neg hce, if_neg hce]
      exact ih _ (fun c2 hc2 => hpres c2 (List.mem_cons_of_mem _ hc2)) hlen

theorem mergeBackfill_below_cap_eq_pure (now : Int) :
    ∀ (L : List Candle) (m : OMap),
      (mergeBackfill now L m).length < CLOSED_CAP →
      mergeBackfill now L m = mergePure now L m ∧ m.length < CLOSED_CAP := by
  intro L
  induction L with
  | nil => intro m h; exact ⟨rfl, h⟩
  | cons c L ih =>
    intro m h
    rw [mergeBackfill_cons] at h ⊢
    rw [mergePure_cons]
    by_cases hce : c.end_ ≤ now
    · rw [if_pos hce] at h ⊢
      rw [if_pos hce]
      obtain ⟨heq, hlen⟩ := ih _ h
      have hid : omapInsert CLOSED_CAP c.start c m = omapAssign c.start c m := by
        unfold omapInsert at hlen ⊢
        rw [popToCap_length] at hlen
        have halen : (omapAssign c.start c m).length < CLOSED_CAP := by omega
        exact popToCap_eq_self (le_of_lt halen)
      refine ⟨by rw [heq, hid], ?_⟩
      have h1 := length_le_omapAssign c.start c m
      rw [hid] at hlen
      omega
    · rw [if_neg hce] at h ⊢
      rw [if_neg hce]
      exact ih _ h

/-- C5 amended: the backfill merge stores only candles whose end is at or
before the current time, keys each stored candle by its start with overwrite
semantics, and keeps keys duplicate-free; it is idempotent — merging the
same fetched candles twice gives the same closed map as merging once —
provided the merged map stays strictly below the 2000-entry eviction cap.
(At the cap, eviction makes a re-run change the key set; see the
counterexample.) -/
theorem mergeBackfill_idempotent_below_cap :
    ∀ (now : Int) (L : List Candle) (s : OMap),
      (omapKeys s).Nodup →
      (∀ p ∈ s, p.1 = p.2.start) →
      (mergeBackfill now L s).length < CLOSED_CAP →
      (mergeBackfill now L (mergeBackfill now L s) = mergeBackfill now L s ∧
       (omapKeys (mergeBackfill now L s)).Nodup ∧
       (∀ p ∈ mergeBackfill now L s, p.1 = p.2.start) ∧
       (∀ p ∈ mergeBackfill now L s,
          p.2 ∈ omapValues s ∨ (p.2 ∈ L ∧ p.2.end_ ≤ now))) := by
  intro now L s hnd hks hlen
  obtain ⟨hpure, _⟩ := mergeBackfill_below_cap_eq_pure now L s hlen
  have hndM : (omapKeys (mergeBackfill now L s)).Nodup :=
    mergeBackfill_nodup now L s hnd
  have hpresent : ∀ c ∈ L, c.end_ ≤ now →
      c.start ∈ omapKeys (mergeBackfill now L s) := by
    intro c hc hce
    rw [hpure]
    exact writeKey_mem_mergePure now L s c hc hce
  have hpresentB : ∀ c ∈ L, c.end_ ≤ now →
      omapMember c.start (mergeBackfill now L s) = true := by
    intro c hc hce
    rw [omapMember_iff]
    exact hpresent c hc hce
  have hpass2 : mergeBackfill now L (mergeBackfill now L s) =
      mergePure now L (mergeBackfill now L s) :=
    mergeBackfill_eq_mergePure_of_present now L _ hpresentB (le_of_lt hlen)
  have hkeysEq : omapKeys (mergePure now L (mergeBackfill now L s)) =
      omapKeys (mergeBackfill now L s) :=
    omapKeys_mergePure_of_present now L _ hpresent
  refine ⟨?_, hndM, ?_, ?_⟩
  · rw [hpass2]
    apply omap_ext _ _ hkeysEq (hkeysEq ▸ hndM)
    intro k
    have hM : omapLookup k (mergeBackfill now L s) =
        L.foldl (writeStep now k) (omapLookup k s) := by
      rw [hpure, omapLookup_mergePure]
    rw [omapLookup_mergePure, hM]
    exact foldl_writeStep_idem now k L (omapLookup k s)
  · intro p hp
    rcases mem_mergeBackfill now L s p hp with h | h
    · exact hks p h
    · obtain ⟨c, _, _, hpc⟩ := h
      rw [hpc]
  · intro p hp
    rcases mem_mergeBackfill now L s p hp with h | h
    · left
      exact List.mem_map.mpr ⟨p, h, rfl⟩
    · right
      obtain ⟨c, hc, hce, hpc⟩ := h
      rw [hpc]
      exact ⟨hc, hce⟩

/-- Witness for C5 on a small merge far below the cap. -/
theorem mergeBackfill_idempotent_below_cap_witness :
    mergeBackfill 1000000000 [cNew, cOld]
        (mergeBackfill 1000000000 [cNew, cOld] []) =
      mergeBackfill 1000000000 [cNew, cOld] [] ∧
    (omapKeys (mergeBackfill 1000000000 [cNew, cOld] [])).Nodup ∧
    (∀ p ∈ mergeBackfill 1000000000 [cNew, cOld] [], p.1 = p.2.start) ∧
    (∀ p ∈ mergeBackfill 1000000000 [cNew, cOld] [],
       p.2 ∈ omapValues ([] : OMap) ∨
         (p.2 ∈ [cNew, cOld] ∧ p.2.end_ ≤ 1000000000)) :=
  mergeBackfill_idempotent_below_cap 1000000000 [cNew, cOld] []
    (by decide) (by decide) (by decide)

theorem rangeClosed_cons (a : Int) (n : Nat) :
    rangeClosed a (n + 1) = (a, mkCandle a) :: rangeClosed (a + 1) n := by
  unfold rangeClosed
  rw [List.range_succ_eq_map, List.map_cons, List.map_map]
  congr 1
  · norm_num
  · apply List.map_congr_left
    intro i _
    show (a + ↑(Nat.succ i), mkCandle (a + ↑(Nat.succ i))) =
      (a + 1 + ↑i, mkCandle (a + 1 + ↑i))
    have h : a + ↑(Nat.succ i) = a + 1 + ↑i := by
      push_cast
      ring
    rw [h]

theorem rangeClosed_length (a : Int) (n : Nat) :
    (rangeClosed a n).length = n := by
  unfold rangeClosed
  rw [List.length_map, List.length_range]

theorem mem_rangeClosed {a : Int} {n : Nat} {p : Int × Candle}
    (h : p ∈ rangeClosed a n) :
    ∃ i : Nat, i < n ∧ p = (a + i, mkCandle (a + i)) := by
  obtain ⟨i, hi, hp⟩ := List.mem_map.mp h
  exact ⟨i, List.mem_range.mp hi, hp.symm⟩

theorem rangeClosed_key_bound {a : Int} {n : Nat} {p : Int × Candle}
    (h : p ∈ rangeClosed a n) : a ≤ p.1 ∧ p.1 < a + n := by
  obtain ⟨i, hi, hp⟩ := mem_rangeClosed h
  rw [hp]
  constructor
  · simp
  · simp only []
    have : (i : Int) < n := by exact_mod_cast hi
    omega

theorem rangeClosed_key_eq {a : Int} {n : Nat} {p : Int × Candle} {k : Int}
    (h : p ∈ rangeClosed a n) (hk : p.1 = k) : p = (k, mkCandle k) := by
  obtain ⟨i, _, hp⟩ := mem_rangeClosed h
  rw [hp] at hk ⊢
  simp only [] at hk
  rw [hk]

theorem omapMember_append (k : Int) (m1 m2 : OMap) :
    omapMember k (m1 ++ m2) = (omapMember k m1 || omapMember k m2) := by
  unfold omapMember
  rw [List.any_append]

theorem omapMember_rangeClosed_false {a : Int} {n : Nat} {k : Int}
    (h : k < a ∨ a + n ≤ k) : omapMember k (rangeClosed a n) = false := by
  rw [omapMember_eq_false_iff]
  intro hk
  obtain ⟨p, hp, hpk⟩ := List.mem_map.mp hk
  have hb := rangeClosed_key_bound hp
  rw [hpk] at hb
  omega

theorem omapLookup_rangeClosed_none {a : Int} {n : Nat} {k : Int}
    (h : k < a ∨ a + n ≤ k) : omapLookup k (rangeClosed a n) = none := by
  apply omapLookup_eq_none_of_not_mem
  intro hk
  have := (omapMember_iff k (rangeClosed a n)).mpr hk
  rw [omapMember_rangeClosed_false h] at this
  cases this

theorem omapAssign_self {k : Int} {v : Candle} {m : OMap}
    (hmem : omapMember k m = true)
    (hid : ∀ p ∈ m, p.1 = k → p = (k, v)) :
    omapAssign k v m = m := by
  unfold omapAssign
  rw [if_pos hmem]
  conv_rhs => rw [← List.map_id m]
  apply List.map_congr_left
  intro p hp
  by_cases hpk : p.1 = k
  · simp only [beq_iff_eq, hpk, if_pos rfl, id]
    exact (hid p hp hpk).symm
  · simp [beq_iff_eq, hpk]

theorem rangeClosed_keys_nodup (a : Int) (n : Nat) :
    (omapKeys (rangeClosed a n)).Nodup := by
  unfold omapKeys rangeClosed
  rw [List.map_map]
  have hinj : Function.Injective (fun i : Nat => a + (i : Int)) := by
    intro i j hij
    simp only [] at hij
    omega
  exact (List.nodup_range n).map (by
    intro i j hij
    exact hinj hij)

theorem bigClosed_eq : bigClosed = (0, mkCandle 0) :: rangeClosed 1 1999 := by
  show rangeClosed 0 CLOSED_CAP = _
  rw [show CLOSED_CAP = 1999 + 1 from rfl, rangeClosed_cons]
  norm_num

/-- First merge at the cap: overwriting key 0 in place, then appending key
2000 evicts the oldest entry (key 0). -/
theorem cexOnce_eq : cexOnce = rangeClosed 1 1999 ++ [(2000, mkCandle 2000)] := by
  show mergeBackfill cexNow cexBatch bigClosed = _
  show mergeBackfill cexNow [mkCandle 0, mkCandle 2000] bigClosed = _
  rw [mergeBackfill_cons, if_pos (by norm_num [mkCandle, cexNow])]
  have hmem0 : omapMember (mkCandle 0).start bigClosed = true := by
    rw [bigClosed_eq]
    unfold omapMember
    rw [List.any_cons]
    simp [mkCandle]
  have hstep1 : omapInsert CLOSED_CAP (mkCandle 0).start (mkCandle 0) bigClosed =
      bigClosed := by
    unfold omapInsert
    rw [omapAssign_self hmem0 ?hid]
    case hid =>
      intro p hp hpk
      show p = ((mkCandle 0).start, mkCandle 0)
      have : p = ((mkCandle 0).start, mkCandle ((mkCandle 0).start)) :=
        rangeClosed_key_eq hp hpk
      simpa [mkCandle] using this
    apply popToCap_eq_self
    show bigClosed.length ≤ CLOSED_CAP
    unfold bigClosed
    rw [rangeClosed_length]
  rw [hstep1, mergeBackfill_cons, if_pos (by norm_num [mkCandle, cexNow])]
  have hmem2000 : omapMember (mkCandle 2000).start bigClosed = false := by
    apply omapMember_rangeClosed_false
    right
    norm_num [mkCandle, CLOSED_CAP]
  have hstep2 : omapInsert CLOSED_CAP (mkCandle 2000).start (mkCandle 2000) bigClosed =
      rangeClosed 1 1999 ++ [(2000, mkCandle 2000)] := by
    unfold omapInsert
    rw [omapAssign_of_not_member _ hmem2000]
    rw [bigClosed_eq]
    rw [show (mkCandle 2000).start = 2000 from rfl]
    rw [List.cons_append]
    rw [popToCap_cons_of_over (by
      rw [List.length_append, rangeClosed_length]
      norm_num [CLOSED_CAP])]
    apply popToCap_eq_self
    rw [List.length_append, rangeClosed_length]
    norm_num [CLOSED_CAP]
  rw [hstep2]
  rfl

/-- Second merge of the same batch: key 0 was evicted, so it is re-appended,
evicting key 1; key 2000 is overwritten in place.  The key set changes. -/
theorem cexTwice_eq :
    cexTwice = rangeClosed 2 1998 ++ [(2000, mkCandle 2000), (0, mkCandle 0)] := by
  show mergeBackfill cexNow cexBatch cexOnce = _
  rw [show cexBatch = [mkCandle 0, mkCandle 2000] from rfl, cexOnce_eq]
  rw [mergeBackfill_cons, if_pos (by norm_num [mkCandle, cexNow])]
  have hsplit : rangeClosed 1 1999 = (1, mkCandle 1) :: rangeClosed 2 1998 := by
    rw [show (1999 : Nat) = 1998 + 1 from rfl, rangeClosed_cons]
    norm_num
  have hmem0 : omapMember (mkCandle 0).start
      (rangeClosed 1 1999 ++ [(2000, mkCandle 2000)]) = false := by
    rw [omapMember_append, omapMember_rangeClosed_false (by
      left
      norm_num [mkCandle])]
    rw [show (mkCandle 0).start = 0 from rfl]
    rfl
  have hstep1 : omapInsert CLOSED_CAP (mkCandle 0).start (mkCandle 0)
      (rangeClosed 1 1999 ++ [(2000, mkCandle 2000)]) =
      rangeClosed 2 1998 ++ [(2000, mkCandle 2000), (0, mkCandle 0)] := by
    unfold omapInsert
    rw [omapAssign_of_not_member _ hmem0]
    rw [show (mkCandle 0).start = 0 from rfl]
    rw [hsplit, List.cons_append, List.cons_append]
    rw [popToCap_cons_of_over (by
      simp only [List.length_append, rangeClosed_length]
      norm_num [CLOSED_CAP])]
    rw [popToCap_eq_self (by
      simp only [List.length_append, rangeClosed_length]
      norm_num [CLOSED_CAP])]
    simp
  rw [hstep1, mergeBackfill_cons, if_pos (by norm_num [mkCandle, cexNow])]
  have hmem2000 : omapMember (mkCandle 2000).start
      (rangeClosed 2 1998 ++ [(2000, mkCandle 2000), (0, mkCandle 0)]) = true := by
    rw [omapMember_append]
    apply Bool.or_eq_true_iff.mpr
    right
    rfl
  have hstep2 : omapInsert CLOSED_CAP (mkCandle 2000).start (mkCandle 2000)
      (rangeClosed 2 1998 ++ [(2000, mkCandle 2000), (0, mkCandle 0)]) =
      rangeClosed 2 1998 ++ [(2000, mkCandle 2000), (0, mkCandle 0)] := by
    unfold omapInsert
    rw [omapAssign_self hmem2000 ?hid]
    case hid =>
      intro p hp hpk
      rcases List.mem_append.mp hp with hp | hp
      · have hb := rangeClosed_key_bound hp
        rw [hpk] at hb
        norm_num [mkCandle] at hb
      · rcases List.mem_cons.mp hp with hp | hp
        · rw [hp]
          rfl
        · rw [List.mem_singleton] at hp
          rw [hp] at hpk
          norm_num [mkCandle] at hpk
    apply popToCap_eq_self
    simp only [List.length_append, rangeClosed_length]
    norm_num [CLOSED_CAP]
  rw [hstep2]
  rfl

/-- C5 counterexample: at the 2000-entry cap the merge is not idempotent.
Starting from a full closed map with keys 0..1999 and merging a batch that
rewrites key 0 and adds key 2000, the first merge evicts key 0; re-running
the identical merge re-appends key 0 and evicts key 1 instead, so running
the merge twice yields a different closed map (key 0 absent after one run,
present after two) than running it once. -/
theorem mergeBackfill_not_idempotent_at_cap :
    cexTwice ≠ cexOnce ∧
    omapLookup 0 cexOnce = none ∧
    omapLookup 0 cexTwice = some (mkCandle 0) ∧
    (omapKeys bigClosed).Nodup ∧
    (∀ p ∈ bigClosed, p.1 = p.2.start) := by
  have h1 : omapLookup 0 cexOnce = none := by
    rw [cexOnce_eq, omapLookup_append,
      omapLookup_rangeClosed_none (by norm_num), Option.none_or]
    rfl
  have h2 : omapLookup 0 cexTwice = some (mkCandle 0) := by
    rw [cexTwice_eq, omapLookup_append,
      omapLookup_rangeClosed_none (by norm_num), Option.none_or]
    rfl
  refine ⟨?_, h1, h2, ?_, ?_⟩
  · intro h
    rw [h, h1] at h2
    cases h2
  · exact rangeClosed_keys_nodup 0 CLOSED_CAP
  · intro p hp
    obtain ⟨i, _, hpi⟩ := mem_rangeClosed hp
    rw [hpi]
    rfl

/-- C3: with a working candle present, a tick triggers a rollover if and
only if its bucket start is strictly greater than the working candle start.
On rollover exactly the old working candle moves into the closed map (keyed
by its start) and the new working candle covers the tick:
`start = bucketStart(T) ≤ T < end`.  Otherwise — including ticks earlier
than the last processed timestamp that floor into the working bucket — the
closed map is untouched and the tick is folded into the working candle. -/
theorem applyTickTf_rollover_iff_strictly_greater :
    ∀ (tf : Timeframe) (tick : Tick) (s : SeriesState) (w : Candle),
      s.working = some w →
      ((floorToBucket tf tick.ts > w.start →
          (applyTickTf tf tick s).closed = omapInsert CLOSED_CAP w.start w s.closed ∧
          ∃ nw, (applyTickTf tf tick s).working = some nw ∧
            nw.start = floorToBucket tf tick.ts ∧
            nw.end_ = bucketEnd tf (floorToBucket tf tick.ts) ∧
            nw.start ≤ tick.ts ∧ tick.ts < nw.end_) ∧
       (¬ floorToBucket tf tick.ts > w.start →
          (applyTickTf tf tick s).closed = s.closed ∧
          (applyTickTf tf tick s).working = some
            { w with h := max w.h tick.ltp, l := min w.l tick.ltp,
                     c := tick.ltp, v := w.v + tickDeltaV tick s.lastSeenCumVol })) := by
  intro tf tick s w hw
  constructor
  · intro hgt
    simp only [applyTickTf, hw]
    rw [if_pos hgt]
    refine ⟨rfl, ?_⟩
    refine ⟨_, rfl, rfl, rfl, floorToBucket_le tf tick.ts, ?_⟩
    exact lt_floorToBucket_add tf tick.ts
  · intro hle
    simp only [applyTickTf, hw]
    rw [if_neg hle]
    exact ⟨rfl, rfl⟩

/-- Witness for C3: the third scenario tick (09:31:01) applied to the series
holding the 09:30 working candle. -/
theorem applyTickTf_rollover_iff_strictly_greater_witness :
    (floorToBucket Timeframe.m1 tickC.ts >
        (⟨ts093000, ts093100, 100, 101, 100, 101, 15, "X", Timeframe.m1⟩ : Candle).start →
      (applyTickTf Timeframe.m1 tickC
          (applyTickTf Timeframe.m1 tickB (applyTickTf Timeframe.m1 tickA freshSeries))).closed =
        omapInsert CLOSED_CAP ts093000
          ⟨ts093000, ts093100, 100, 101, 100, 101, 15, "X", Timeframe.m1⟩
          (applyTickTf Timeframe.m1 tickB (applyTickTf Timeframe.m1 tickA freshSeries)).closed ∧
      ∃ nw, (applyTickTf Timeframe.m1 tickC
          (applyTickTf Timeframe.m1 tickB (applyTickTf Timeframe.m1 tickA freshSeries))).working =
          some nw ∧
        nw.start = floorToBucket Timeframe.m1 tickC.ts ∧
        nw.end_ = bucketEnd Timeframe.m1 (floorToBucket Timeframe.m1 tickC.ts) ∧
        nw.start ≤ tickC.ts ∧ tickC.ts < nw.end_) ∧
    (¬ floorToBucket Timeframe.m1 tickC.ts >
        (⟨ts093000, ts093100, 100, 101, 100, 101, 15, "X", Timeframe.m1⟩ : Candle).start →
      (applyTickTf Timeframe.m1 tickC
          (applyTickTf Timeframe.m1 tickB (applyTickTf Timeframe.m1 tickA freshSeries))).closed =
        (applyTickTf Timeframe.m1 tickB (applyTickTf Timeframe.m1 tickA freshSeries)).closed ∧
      (applyTickTf Timeframe.m1 tickC
          (applyTickTf Timeframe.m1 tickB (applyTickTf Timeframe.m1 tickA freshSeries))).working =
        some { (⟨ts093000, ts093100, 100, 101, 100, 101, 15, "X", Timeframe.m1⟩ : Candle) with
          h := max 101 tickC.ltp, l := min 100 tickC.ltp, c := tickC.ltp,
          v := 15 + tickDeltaV tickC
            (applyTickTf Timeframe.m1 tickB (applyTickTf Timeframe.m1 tickA freshSeries)).lastSeenCumVol }) :=
  applyTickTf_rollover_iff_strictly_greater Timeframe.m1 tickC
    (applyTickTf Timeframe.m1 tickB (applyTickTf Timeframe.m1 tickA freshSeries))
    ⟨ts093000, ts093100, 100, 101, 100, 101, 15, "X", Timeframe.m1⟩ (by decide)
